import Mathlib

/-!
Shallow embedding of the hierarchical policy engine of `node.h`
(`struct Node`, `class PolicyEngine`), as wrapped by
`hierarchical_policy_engine_cython.pyx`.

A C++ `Node` carries two booleans and an `unordered_map<string, Node*>`
of children; we embed the child map as an association list with unique
keys (uniqueness is the `WFb` predicate below; `std::unordered_map`
guarantees it by construction).  Path strings are split on `'.'` exactly
as the manual `find`/`substr` loops of `allow_path`, `suppress_path` and
`check_access` do, keeping empty tokens.
-/

namespace Leukocyte

/-- Mirror of `struct Node` in node.h: `is_allowed`, `is_suppressed`,
and the `children` map from segment to child node. -/
inductive Node : Type where
  | mk : Bool → Bool → List (String × Node) → Node

/-- Projection for `Node::is_allowed`. -/
def Node.is_allowed : Node → Bool
  | .mk a _ _ => a

/-- Projection for `Node::is_suppressed`. -/
def Node.is_suppressed : Node → Bool
  | .mk _ s _ => s

/-- Projection for `Node::children`. -/
def Node.children : Node → List (String × Node)
  | .mk _ _ ch => ch

/-- A freshly constructed node (`Node() : is_allowed(false), is_suppressed(false)`). -/
def emptyNode : Node := .mk false false []

/-- The token loop of `allow_path`/`suppress_path`/`check_access`:
split on `'.'`, keeping empty tokens, always producing a final token. -/
def splitAux : List Char → List Char → List String
  | [], acc => [String.mk acc.reverse]
  | c :: rest, acc =>
    if c = '.' then String.mk acc.reverse :: splitAux rest []
    else splitAux rest (c :: acc)

/-- Split a path string into its segment tokens (as the C++ loops do). -/
def splitPath (s : String) : List String := splitAux s.data []

/-- Lookup in the child map (`children.find(token)`). -/
def findChild (k : String) : List (String × Node) → Option Node
  | [] => none
  | (k', n) :: tl => if k' = k then some n else findChild k tl

/-- Find-or-create in the child map followed by an update of the entry:
`if (children.find(token) == end) children[token] = new Node(); node = children[token];`
with the continuation `f` applied to the node descended into. -/
def updateChild (k : String) (f : Node → Node) : List (String × Node) → List (String × Node)
  | [] => [(k, f emptyNode)]
  | (k', n) :: tl => if k' = k then (k', f n) :: tl else (k', n) :: updateChild k f tl

/-- Segment-level body of `PolicyEngine::allow_path`: walk the tokens,
creating missing children, and set `is_allowed` on the terminal node. -/
def allowSegs : List String → Node → Node
  | [], .mk _ s ch => .mk true s ch
  | k :: rest, .mk a s ch => .mk a s (updateChild k (allowSegs rest) ch)

/-- Segment-level body of `PolicyEngine::suppress_path`: walk the tokens,
creating missing children, and set `is_suppressed` on the terminal node. -/
def suppressSegs : List String → Node → Node
  | [], .mk a _ ch => .mk a true ch
  | k :: rest, .mk a s ch => .mk a s (updateChild k (suppressSegs rest) ch)

/-- Segment-level body of `PolicyEngine::check_access`: walk the tokens,
returning DENIED_NOT_FOUND on a missing child, then report from the
terminal node's flags (suppressed first, then allowed). -/
def checkSegs : List String → Node → String
  | [], n =>
    if n.is_suppressed then "BLOCKED_SUPPRESSED"
    else if n.is_allowed then "ALLOWED"
    else "DENIED_NOT_FOUND"
  | k :: rest, n =>
    match findChild k n.children with
    | some c => checkSegs rest c
    | none => "DENIED_NOT_FOUND"

/-- `PolicyEngine::allow_path` on a path string. -/
def allow_path (t : Node) (p : String) : Node := allowSegs (splitPath p) t

/-- `PolicyEngine::suppress_path` on a path string. -/
def suppress_path (t : Node) (p : String) : Node := suppressSegs (splitPath p) t

/-- `PolicyEngine::check_access` on a path string. -/
def check_access (t : Node) (p : String) : String := checkSegs (splitPath p) t

/-- `next_path = (current_path.empty() ? "" : current_path + ".") + key`. -/
def extendPath (cur k : String) : String := (if cur = "" then "" else cur ++ ".") ++ k

mutual

/-- `PolicyEngine::_flatten_recursive`: emit the current path when
`is_allowed && !is_suppressed`; stop (do not descend) when suppressed. -/
def flattenAux : Node → String → List String
  | .mk a s ch, cur =>
    (if a && !s then [cur] else []) ++ (if s then [] else flattenChildren ch cur)

/-- The child loop of `_flatten_recursive`. -/
def flattenChildren : List (String × Node) → String → List String
  | [], _ => []
  | (k, n) :: tl, cur => flattenAux n (extendPath cur k) ++ flattenChildren tl cur

end

/-- `PolicyEngine::flatten`. -/
def flatten (t : Node) : List String := flattenAux t ""

mutual

/-- `PolicyEngine::_intersect_recursive`: emit the current path when both
nodes are allowed; recurse along the keys shared with the other trie. -/
def interAux : Node → Node → String → List String
  | .mk aa _ cha, b, cur =>
    (if aa && b.is_allowed then [cur] else []) ++ interChildren cha b.children cur

/-- The child loop of `_intersect_recursive`: iterate the receiver's
children; descend only when the key is present in the other map. -/
def interChildren : List (String × Node) → List (String × Node) → String → List String
  | [], _, _ => []
  | (k, na) :: tl, chb, cur =>
    (match findChild k chb with
     | some nb => interAux na nb (extendPath cur k)
     | none => []) ++ interChildren tl chb cur

end

/-- `PolicyEngine::intersection` (receiver first, as in `A.intersection(B)`). -/
def intersection (a b : Node) : List String := interAux a b ""

/-- Follow a segment sequence from a node (observer used in the statements). -/
def findNode : Node → List String → Option Node
  | n, [] => some n
  | n, k :: rest =>
    match findChild k n.children with
    | some c => findNode c rest
    | none => none

/-- Whether the node addressed by `segs` exists and is allowed. -/
def allowedAtB (t : Node) (segs : List String) : Bool :=
  match findNode t segs with
  | some n => n.is_allowed
  | none => false

/-- Whether the node addressed by `segs` exists and is suppressed. -/
def suppressedAtB (t : Node) (segs : List String) : Bool :=
  match findNode t segs with
  | some n => n.is_suppressed
  | none => false

/-- The dotted rendering of the walk that starts with accumulated string
`cur` and appends the given segments via `extendPath`. -/
def renderFrom (cur : String) (segs : List String) : String := segs.foldl extendPath cur

/-- The verdict `check_access` computes once the walk has reached its
terminal node (the tail of the C++ function after the token loop). -/
def terminalVerdict : Option Node → String
  | none => "DENIED_NOT_FOUND"
  | some n =>
    if n.is_suppressed then "BLOCKED_SUPPRESSED"
    else if n.is_allowed then "ALLOWED"
    else "DENIED_NOT_FOUND"

mutual

/-- Size of a node (for the induction principle only). -/
def nodeSize : Node → Nat
  | .mk _ _ ch => 1 + listSize ch

/-- Size of a child list (for the induction principle only). -/
def listSize : List (String × Node) → Nat
  | [] => 0
  | (_, n) :: tl => 1 + nodeSize n + listSize tl

end

/-- Whether a key occurs in a child list. -/
def hasKey (k : String) : List (String × Node) → Bool
  | [] => false
  | (k', _) :: tl => k' = k || hasKey k tl

/-- Keys of the child list are pairwise distinct. -/
def nodupKeys : List (String × Node) → Bool
  | [] => true
  | (k, _) :: tl => !(hasKey k tl) && nodupKeys tl

mutual

/-- A node is well formed when every child map has unique keys, recursively;
`std::unordered_map` guarantees this for every C++ store by construction. -/
def WFb : Node → Bool
  | .mk _ _ ch => nodupKeys ch && WFlist ch

/-- All nodes of a child list are well formed. -/
def WFlist : List (String × Node) → Bool
  | [] => true
  | (_, n) :: tl => WFb n && WFlist tl

end

mutual

/-- Clear every `is_suppressed` flag (observer used to say that two stores
differ only in their suppressed flags). -/
def stripSup : Node → Node
  | .mk a _ ch => .mk a false (stripSupList ch)

/-- `stripSup` over a child list. -/
def stripSupList : List (String × Node) → List (String × Node)
  | [] => []
  | (k, n) :: tl => (k, stripSup n) :: stripSupList tl

end

/-- The stores reachable from the freshly constructed engine (`PolicyEngine()`)
by any sequence of `allow_path` and `suppress_path` calls. -/
inductive Reachable : Node → Prop where
  | empty : Reachable emptyNode
  | allow (t : Node) (p : String) : Reachable t → Reachable (allow_path t p)
  | suppress (t : Node) (p : String) : Reachable t → Reachable (suppress_path t p)

/-! ### Basic lemmas about the embedded data structures -/

@[simp] theorem is_allowed_mk (a s : Bool) (ch : List (String × Node)) :
    (Node.mk a s ch).is_allowed = a := rfl

@[simp] theorem is_suppressed_mk (a s : Bool) (ch : List (String × Node)) :
    (Node.mk a s ch).is_suppressed = s := rfl

@[simp] theorem children_mk (a s : Bool) (ch : List (String × Node)) :
    (Node.mk a s ch).children = ch := rfl

theorem node_eta (n : Node) : Node.mk n.is_allowed n.is_suppressed n.children = n := by
  cases n; rfl

theorem splitAux_ne_nil (l : List Char) (acc : List Char) : splitAux l acc ≠ [] := by
  induction l generalizing acc with
  | nil => simp [splitAux]
  | cons c rest ih =>
    simp only [splitAux]
    split
    · simp
    · exact ih (c :: acc)

theorem splitPath_exists_cons (s : String) : ∃ k rest, splitPath s = k :: rest := by
  rcases h : splitPath s with _ | ⟨k, rest⟩
  · exact absurd h (splitAux_ne_nil s.data [])
  · exact ⟨k, rest, rfl⟩

@[simp] theorem findChild_nil (k : String) : findChild k ([] : List (String × Node)) = none := rfl

theorem findChild_updateChild_self (k : String) (f : Node → Node)
    (ch : List (String × Node)) :
    findChild k (updateChild k f ch) = some (f ((findChild k ch).getD emptyNode)) := by
  induction ch with
  | nil => simp [updateChild, findChild]
  | cons hd tl ih =>
    obtain ⟨k', n⟩ := hd
    by_cases hk : k' = k
    · subst hk
      simp [updateChild, findChild]
    · simp [updateChild, findChild, hk, ih]

theorem findChild_updateChild_ne (j k : String) (hjk : j ≠ k) (f : Node → Node)
    (ch : List (String × Node)) :
    findChild j (updateChild k f ch) = findChild j ch := by
  induction ch with
  | nil =>
    simp only [updateChild, findChild]
    rw [if_neg (fun h => hjk h.symm)]
  | cons hd tl ih =>
    obtain ⟨k', n⟩ := hd
    by_cases hk : k' = k
    · subst hk
      simp only [updateChild, if_pos rfl, findChild]
      rw [if_neg (fun h => hjk h.symm), if_neg (fun h => hjk h.symm)]
    · by_cases hj : k' = j
      · subst hj
        simp [updateChild, findChild, hk]
      · simp [updateChild, findChild, hk, hj, ih]

theorem findChild_mem (k : String) (n : Node) (ch : List (String × Node))
    (h : findChild k ch = some n) : (k, n) ∈ ch := by
  induction ch with
  | nil => simp [findChild] at h
  | cons hd tl ih =>
    obtain ⟨k', n'⟩ := hd
    by_cases hk : k' = k
    · subst hk
      simp [findChild] at h
      simp [h]
    · simp [findChild, hk] at h
      exact List.mem_cons_of_mem _ (ih h)

@[simp] theorem findNode_nil (n : Node) : findNode n [] = some n := rfl

theorem findNode_cons (n : Node) (k : String) (rest : List String) :
    findNode n (k :: rest) =
      (match findChild k n.children with
       | some c => findNode c rest
       | none => none) := rfl

@[simp] theorem allowedAtB_nil (t : Node) : allowedAtB t [] = t.is_allowed := rfl

@[simp] theorem suppressedAtB_nil (t : Node) : suppressedAtB t [] = t.is_suppressed := rfl

theorem allowedAtB_cons (t : Node) (k : String) (rest : List String) :
    allowedAtB t (k :: rest) =
      (match findChild k t.children with
       | some c => allowedAtB c rest
       | none => false) := by
  simp only [allowedAtB, findNode_cons]
  cases findChild k t.children <;> rfl

theorem suppressedAtB_cons (t : Node) (k : String) (rest : List String) :
    suppressedAtB t (k :: rest) =
      (match findChild k t.children with
       | some c => suppressedAtB c rest
       | none => false) := by
  simp only [suppressedAtB, findNode_cons]
  cases findChild k t.children <;> rfl

/-! ### Flag effect of `allow_path` and `suppress_path` -/

@[simp] theorem allowSegs_nil (a s : Bool) (ch : List (String × Node)) :
    allowSegs [] (.mk a s ch) = .mk true s ch := rfl

@[simp] theorem allowSegs_cons (k : String) (rest : List String) (a s : Bool)
    (ch : List (String × Node)) :
    allowSegs (k :: rest) (.mk a s ch) = .mk a s (updateChild k (allowSegs rest) ch) := rfl

@[simp] theorem suppressSegs_nil (a s : Bool) (ch : List (String × Node)) :
    suppressSegs [] (.mk a s ch) = .mk a true ch := rfl

@[simp] theorem suppressSegs_cons (k : String) (rest : List String) (a s : Bool)
    (ch : List (String × Node)) :
    suppressSegs (k :: rest) (.mk a s ch) = .mk a s (updateChild k (suppressSegs rest) ch) := rfl

theorem allowedAtB_allowSegs (ps : List String) (t : Node) :
    allowedAtB (allowSegs ps t) ps = true := by
  induction ps generalizing t with
  | nil => cases t; simp
  | cons k rest ih =>
    cases t with
    | mk a s ch =>
      rw [allowSegs_cons, allowedAtB_cons]
      simp only [children_mk, findChild_updateChild_self]
      exact ih _

theorem suppressedAtB_suppressSegs (ps : List String) (t : Node) :
    suppressedAtB (suppressSegs ps t) ps = true := by
  induction ps generalizing t with
  | nil => cases t; simp
  | cons k rest ih =>
    cases t with
    | mk a s ch =>
      rw [suppressSegs_cons, suppressedAtB_cons]
      simp only [children_mk, findChild_updateChild_self]
      exact ih _

theorem suppressedAtB_allowSegs_emptyNode (ps qs : List String) :
    suppressedAtB (allowSegs ps emptyNode) qs = false := by
  induction ps generalizing qs with
  | nil =>
    cases qs with
    | nil => simp [emptyNode]
    | cons j qs' => simp [emptyNode, suppressedAtB_cons]
  | cons k rest ih =>
    cases qs with
    | nil => simp [emptyNode]
    | cons j qs' =>
      rw [show allowSegs (k :: rest) emptyNode
            = .mk false false [(k, allowSegs rest emptyNode)] from rfl]
      rw [suppressedAtB_cons]
      by_cases hj : k = j
      · subst hj
        simp [findChild, ih]
      · simp [findChild, hj]

theorem allowedAtB_suppressSegs_emptyNode (ps qs : List String) :
    allowedAtB (suppressSegs ps emptyNode) qs = false := by
  induction ps generalizing qs with
  | nil =>
    cases qs with
    | nil => simp [emptyNode]
    | cons j qs' => simp [emptyNode, allowedAtB_cons]
  | cons k rest ih =>
    cases qs with
    | nil => simp [emptyNode]
    | cons j qs' =>
      rw [show suppressSegs (k :: rest) emptyNode
            = .mk false false [(k, suppressSegs rest emptyNode)] from rfl]
      rw [allowedAtB_cons]
      by_cases hj : k = j
      · subst hj
        simp [findChild, ih]
      · simp [findChild, hj]

theorem suppressedAtB_allowSegs (ps : List String) (t : Node) (qs : List String) :
    suppressedAtB (allowSegs ps t) qs = suppressedAtB t qs := by
  induction ps generalizing t qs with
  | nil =>
    cases t with
    | mk a s ch =>
      cases qs with
      | nil => simp
      | cons j qs' => simp [suppressedAtB_cons]
  | cons k rest ih =>
    cases t with
    | mk a s ch =>
      cases qs with
      | nil => simp
      | cons j qs' =>
        rw [allowSegs_cons, suppressedAtB_cons, suppressedAtB_cons]
        simp only [children_mk]
        by_cases hj : j = k
        · subst hj
          rw [findChild_updateChild_self]
          cases h : findChild j ch with
          | some n => simpa [h] using ih n qs'
          | none => simpa [h] using suppressedAtB_allowSegs_emptyNode rest qs'
        · rw [findChild_updateChild_ne j k hj]

theorem allowedAtB_suppressSegs (ps : List String) (t : Node) (qs : List String) :
    allowedAtB (suppressSegs ps t) qs = allowedAtB t qs := by
  induction ps generalizing t qs with
  | nil =>
    cases t with
    | mk a s ch =>
      cases qs with
      | nil => simp
      | cons j qs' => simp [allowedAtB_cons]
  | cons k rest ih =>
    cases t with
    | mk a s ch =>
      cases qs with
      | nil => simp
      | cons j qs' =>
        rw [suppressSegs_cons, allowedAtB_cons, allowedAtB_cons]
        simp only [children_mk]
        by_cases hj : j = k
        · subst hj
          rw [findChild_updateChild_self]
          cases h : findChild j ch with
          | some n => simpa [h] using ih n qs'
          | none => simpa [h] using allowedAtB_suppressSegs_emptyNode rest qs'
        · rw [findChild_updateChild_ne j k hj]

/-! ### Idempotence -/

theorem updateChild_idem (k : String) (f : Node → Node) (hf : ∀ n, f (f n) = f n)
    (ch : List (String × Node)) :
    updateChild k f (updateChild k f ch) = updateChild k f ch := by
  induction ch with
  | nil => simp [updateChild, hf]
  | cons hd tl ih =>
    obtain ⟨k', n⟩ := hd
    by_cases hk : k' = k
    · subst hk
      simp [updateChild, hf]
    · simp [updateChild, hk, ih]

theorem allowSegs_idem (ps : List String) (t : Node) :
    allowSegs ps (allowSegs ps t) = allowSegs ps t := by
  induction ps generalizing t with
  | nil => cases t; simp
  | cons k rest ih =>
    cases t with
    | mk a s ch =>
      simp only [allowSegs_cons]
      rw [updateChild_idem k _ ih]

theorem suppressSegs_idem (ps : List String) (t : Node) :
    suppressSegs ps (suppressSegs ps t) = suppressSegs ps t := by
  induction ps generalizing t with
  | nil => cases t; simp
  | cons k rest ih =>
    cases t with
    | mk a s ch =>
      simp only [suppressSegs_cons]
      rw [updateChild_idem k _ ih]

/-! ### Root flags under the string-level operations -/

theorem allow_path_root_flags (t : Node) (p : String) :
    (allow_path t p).is_allowed = t.is_allowed ∧
      (allow_path t p).is_suppressed = t.is_suppressed := by
  obtain ⟨k, rest, h⟩ := splitPath_exists_cons p
  cases t with
  | mk a s ch => rw [allow_path, h]; simp

theorem suppress_path_root_flags (t : Node) (p : String) :
    (suppress_path t p).is_allowed = t.is_allowed ∧
      (suppress_path t p).is_suppressed = t.is_suppressed := by
  obtain ⟨k, rest, h⟩ := splitPath_exists_cons p
  cases t with
  | mk a s ch => rw [suppress_path, h]; simp

/-! ### A strong induction principle for the nested tree type -/

theorem nodeSize_lt_of_mem {k : String} {c : Node} {ch : List (String × Node)}
    (h : (k, c) ∈ ch) : nodeSize c < 1 + listSize ch := by
  induction ch with
  | nil => simp at h
  | cons hd tl ih =>
    obtain ⟨k', n'⟩ := hd
    rcases List.mem_cons.mp h with h1 | h1
    · obtain ⟨rfl, rfl⟩ := Prod.mk.injEq .. ▸ h1
      simp only [listSize]
      omega
    · have := ih h1
      simp only [listSize]
      omega

theorem Node.strongInd {P : Node → Prop}
    (h : ∀ a s ch, (∀ k c, (k, c) ∈ ch → P c) → P (.mk a s ch)) : ∀ n, P n := by
  suffices H : ∀ N n, nodeSize n ≤ N → P n from fun n => H (nodeSize n) n le_rfl
  intro N
  induction N with
  | zero =>
    intro n hn
    cases n with
    | mk a s ch => simp [nodeSize] at hn
  | succ N ih =>
    intro n hn
    cases n with
    | mk a s ch =>
      refine h a s ch (fun k c hmem => ih c ?_)
      have h1 := nodeSize_lt_of_mem hmem
      have h2 : nodeSize (.mk a s ch) = 1 + listSize ch := rfl
      omega

/-! ### Well-formedness: the embedded child lists have unique keys, as the
`std::unordered_map` child maps of node.h do by construction -/

theorem WFlist_mem {ch : List (String × Node)} (h : WFlist ch = true) {k : String} {c : Node}
    (hmem : (k, c) ∈ ch) : WFb c = true := by
  induction ch with
  | nil => simp at hmem
  | cons hd tl ih =>
    obtain ⟨k', n'⟩ := hd
    rw [show WFlist ((k', n') :: tl) = (WFb n' && WFlist tl) from rfl] at h
    rcases List.mem_cons.mp hmem with h1 | h1
    · obtain ⟨rfl, rfl⟩ := Prod.mk.injEq .. ▸ h1
      exact (Bool.and_eq_true_iff.mp h).1
    · exact ih (Bool.and_eq_true_iff.mp h).2 h1

theorem WFb_child {a s : Bool} {ch : List (String × Node)}
    (h : WFb (.mk a s ch) = true) {k : String} {c : Node} (hmem : (k, c) ∈ ch) :
    WFb c = true := by
  rw [show WFb (.mk a s ch) = (nodupKeys ch && WFlist ch) from rfl] at h
  exact WFlist_mem (Bool.and_eq_true_iff.mp h).2 hmem

theorem WFb_nodup {a s : Bool} {ch : List (String × Node)}
    (h : WFb (.mk a s ch) = true) : nodupKeys ch = true := by
  rw [show WFb (.mk a s ch) = (nodupKeys ch && WFlist ch) from rfl] at h
  exact (Bool.and_eq_true_iff.mp h).1

theorem hasKey_of_mem {k : String} {n : Node} {ch : List (String × Node)}
    (h : (k, n) ∈ ch) : hasKey k ch = true := by
  induction ch with
  | nil => simp at h
  | cons hd tl ih =>
    obtain ⟨k', n'⟩ := hd
    rcases List.mem_cons.mp h with h1 | h1
    · obtain ⟨rfl, rfl⟩ := Prod.mk.injEq .. ▸ h1
      simp [hasKey]
    · simp [hasKey, ih h1]

theorem findChild_of_mem_nodup {ch : List (String × Node)} (hnd : nodupKeys ch = true)
    {k : String} {n : Node} (hmem : (k, n) ∈ ch) : findChild k ch = some n := by
  induction ch with
  | nil => simp at hmem
  | cons hd tl ih =>
    obtain ⟨k', n'⟩ := hd
    rw [show nodupKeys ((k', n') :: tl) = (!(hasKey k' tl) && nodupKeys tl) from rfl] at hnd
    obtain ⟨hnk, hnd'⟩ := Bool.and_eq_true_iff.mp hnd
    rcases List.mem_cons.mp hmem with h1 | h1
    · obtain ⟨rfl, rfl⟩ := Prod.mk.injEq .. ▸ h1
      simp [findChild]
    · by_cases hk : k' = k
      · subst hk
        rw [hasKey_of_mem h1] at hnk
        simp at hnk
      · simp only [findChild, if_neg hk]
        exact ih hnd' h1

/-! ### Characterizing flatten emissions -/

@[simp] theorem renderFrom_nil (cur : String) : renderFrom cur [] = cur := rfl

theorem renderFrom_cons (cur k : String) (segs : List String) :
    renderFrom cur (k :: segs) = renderFrom (extendPath cur k) segs := rfl

theorem mem_flattenChildren {s : String} {ch : List (String × Node)} {cur : String} :
    s ∈ flattenChildren ch cur ↔
      ∃ k c, (k, c) ∈ ch ∧ s ∈ flattenAux c (extendPath cur k) := by
  induction ch with
  | nil => simp [flattenChildren]
  | cons hd tl ih =>
    obtain ⟨k', n'⟩ := hd
    simp only [flattenChildren, List.mem_append, ih]
    constructor
    · rintro (h | ⟨k, c, hmem, hs⟩)
      · exact ⟨k', n', List.mem_cons_self .., h⟩
      · exact ⟨k, c, List.mem_cons_of_mem _ hmem, hs⟩
    · rintro ⟨k, c, hmem, hs⟩
      rcases List.mem_cons.mp hmem with h1 | h1
      · obtain ⟨rfl, rfl⟩ := Prod.mk.injEq .. ▸ h1
        exact Or.inl hs
      · exact Or.inr ⟨k, c, h1, hs⟩

theorem flattenAux_mem (t : Node) : WFb t = true → ∀ cur s, s ∈ flattenAux t cur →
    ∃ segs, s = renderFrom cur segs ∧
      ∀ i, ∃ n, findNode t (List.take i segs) = some n ∧ n.is_suppressed = false := by
  induction t using Node.strongInd with
  | h a sp ch hInd =>
    intro hwf cur s hs
    cases sp with
    | true => simp [flattenAux] at hs
    | false =>
      rw [flattenAux] at hs
      simp only [Bool.not_false, Bool.and_true, if_false, Bool.false_eq_true] at hs
      rcases List.mem_append.mp hs with h1 | h1
      · have hcur : s = cur := by
          rcases ha : a with _ | _
          · rw [ha] at h1; simp at h1
          · rw [ha] at h1; simpa using h1
        refine ⟨[], hcur, fun i => ?_⟩
        simp
      · obtain ⟨k, c, hmem, hsc⟩ := mem_flattenChildren.mp h1
        obtain ⟨segs', hrender, hsupp⟩ :=
          hInd k c hmem (WFb_child hwf hmem) (extendPath cur k) s hsc
        refine ⟨k :: segs', by rw [renderFrom_cons]; exact hrender, fun i => ?_⟩
        cases i with
        | zero => simp
        | succ j =>
          rw [List.take_succ_cons, findNode_cons]
          simp only [children_mk]
          rw [findChild_of_mem_nodup (WFb_nodup hwf) hmem]
          exact hsupp j

/-! ### Characterizing intersection emissions -/

theorem mem_interChildren {s : String} {cha chb : List (String × Node)} {cur : String} :
    s ∈ interChildren cha chb cur ↔
      ∃ k na nb, (k, na) ∈ cha ∧ findChild k chb = some nb ∧
        s ∈ interAux na nb (extendPath cur k) := by
  induction cha with
  | nil => simp [interChildren]
  | cons hd tl ih =>
    obtain ⟨k', na'⟩ := hd
    rw [interChildren]
    simp only [List.mem_append, ih]
    constructor
    · rintro (h | ⟨k, na, nb, hmem, hf, hs⟩)
      · rcases hfb : findChild k' chb with _ | nb'
        · rw [hfb] at h; simp at h
        · rw [hfb] at h
          exact ⟨k', na', nb', List.mem_cons_self .., hfb, h⟩
      · exact ⟨k, na, nb, List.mem_cons_of_mem _ hmem, hf, hs⟩
    · rintro ⟨k, na, nb, hmem, hf, hs⟩
      rcases List.mem_cons.mp hmem with h1 | h1
      · obtain ⟨rfl, rfl⟩ := Prod.mk.injEq .. ▸ h1
        rw [hf]
        exact Or.inl hs
      · exact Or.inr ⟨k, na, nb, h1, hf, hs⟩

theorem interAux_mem_iff (A : Node) : WFb A = true → ∀ B cur s,
    (s ∈ interAux A B cur ↔
      ∃ segs, allowedAtB A segs = true ∧ allowedAtB B segs = true ∧
        s = renderFrom cur segs) := by
  induction A using Node.strongInd with
  | h aa sa cha hInd =>
    intro hwf B cur s
    rw [interAux]
    simp only [List.mem_append]
    constructor
    · rintro (h | h)
      · have hcond : (aa && B.is_allowed) = true := by
          by_contra hc
          rw [Bool.not_eq_true] at hc
          rw [hc] at h
          simp at h
        rw [hcond] at h
        obtain ⟨h1, h2⟩ := Bool.and_eq_true_iff.mp hcond
        refine ⟨[], by simpa using h1, by simpa using h2, ?_⟩
        simpa using h
      · obtain ⟨k, na, nb, hmem, hf, hs⟩ := mem_interChildren.mp h
        obtain ⟨segs', ha, hb, hr⟩ :=
          (hInd k na hmem (WFb_child hwf hmem) nb (extendPath cur k) s).mp hs
        refine ⟨k :: segs', ?_, ?_, by rw [renderFrom_cons]; exact hr⟩
        · rw [allowedAtB_cons]
          simp only [children_mk]
          rw [findChild_of_mem_nodup (WFb_nodup hwf) hmem]
          exact ha
        · rw [allowedAtB_cons, hf]
          exact hb
    · rintro ⟨segs, ha, hb, hr⟩
      cases segs with
      | nil =>
        refine Or.inl ?_
        simp only [allowedAtB_nil, is_allowed_mk] at ha
        simp only [allowedAtB_nil] at hb
        rw [ha, hb]
        simpa using hr
      | cons k rest =>
        refine Or.inr ?_
        rw [allowedAtB_cons] at ha hb
        simp only [children_mk] at ha
        rcases hfa : findChild k cha with _ | na
        · rw [hfa] at ha; simp at ha
        rcases hfb : findChild k B.children with _ | nb
        · rw [hfb] at hb; simp at hb
        rw [hfa] at ha
        rw [hfb] at hb
        have hmem := findChild_mem k na cha hfa
        refine mem_interChildren.mpr ⟨k, na, nb, hmem, hfb, ?_⟩
        refine (hInd k na hmem (WFb_child hwf hmem) nb (extendPath cur k) s).mpr
          ⟨rest, ha, hb, ?_⟩
        rw [renderFrom_cons] at hr
        exact hr

/-! ### Intersection ignores the suppressed flags -/

@[simp] theorem stripSup_is_allowed (n : Node) : (stripSup n).is_allowed = n.is_allowed := by
  cases n; rfl

@[simp] theorem stripSup_children (n : Node) :
    (stripSup n).children = stripSupList n.children := by
  cases n; rfl

theorem findChild_stripSupList (k : String) (ch : List (String × Node)) :
    findChild k (stripSupList ch) = (findChild k ch).map stripSup := by
  induction ch with
  | nil => simp [stripSupList]
  | cons hd tl ih =>
    obtain ⟨k', n⟩ := hd
    by_cases hk : k' = k
    · subst hk
      simp [stripSupList, findChild]
    · simp [stripSupList, findChild, hk, ih]

theorem interChildren_stripSupList (cha chb : List (String × Node)) (cur : String)
    (H : ∀ k c, (k, c) ∈ cha → ∀ B cur',
      interAux (stripSup c) (stripSup B) cur' = interAux c B cur') :
    interChildren (stripSupList cha) (stripSupList chb) cur = interChildren cha chb cur := by
  induction cha with
  | nil => simp [stripSupList, interChildren]
  | cons hd tl ih =>
    obtain ⟨k, na⟩ := hd
    rw [show stripSupList ((k, na) :: tl) = (k, stripSup na) :: stripSupList tl from rfl]
    rw [interChildren, interChildren]
    rw [findChild_stripSupList]
    congr 1
    · rcases hfb : findChild k chb with _ | nb
      · rfl
      · exact H k na (List.mem_cons_self ..) nb (extendPath cur k)
    · exact ih (fun k' c hmem => H k' c (List.mem_cons_of_mem _ hmem))

theorem interAux_stripSup (A : Node) : ∀ B cur,
    interAux (stripSup A) (stripSup B) cur = interAux A B cur := by
  induction A using Node.strongInd with
  | h aa sa cha hInd =>
    intro B cur
    rw [show stripSup (.mk aa sa cha) = .mk aa false (stripSupList cha) from rfl]
    rw [interAux, interAux]
    rw [stripSup_is_allowed]
    congr 1
    rw [stripSup_children]
    exact interChildren_stripSupList cha B.children cur
      (fun k c hmem => hInd k c hmem)

theorem interChildren_nilB (cha : List (String × Node)) (cur : String) :
    interChildren cha [] cur = [] := by
  induction cha with
  | nil => rfl
  | cons hd tl ih =>
    obtain ⟨k, na⟩ := hd
    rw [interChildren, findChild_nil, ih]
    rfl

theorem interAux_suppressChain_left (ps : List String) : ∀ B cur,
    interAux (suppressSegs ps emptyNode) B cur = [] := by
  induction ps with
  | nil =>
    intro B cur
    rw [show suppressSegs [] emptyNode = .mk false true [] from rfl, interAux]
    simp [interChildren]
  | cons k rest ih =>
    intro B cur
    rw [show suppressSegs (k :: rest) emptyNode
          = .mk false false [(k, suppressSegs rest emptyNode)] from rfl, interAux]
    simp only [Bool.false_and, if_false, List.nil_append, Bool.false_eq_true]
    rw [interChildren, interChildren]
    rcases hfb : findChild k B.children with _ | nb
    · rfl
    · show interAux (suppressSegs rest emptyNode) nb (extendPath cur k) ++ _ = _
      rw [ih nb (extendPath cur k)]
      rfl

theorem interChildren_all_nil (chb chX : List (String × Node)) (cur : String)
    (H : ∀ j nb c cur', (j, nb) ∈ chb → findChild j chX = some c →
      interAux nb c cur' = []) :
    interChildren chb chX cur = [] := by
  induction chb with
  | nil => rfl
  | cons hd tl ih =>
    obtain ⟨j, nb⟩ := hd
    rw [interChildren]
    rw [ih (fun j' nb' c cur' hmem => H j' nb' c cur' (List.mem_cons_of_mem _ hmem))]
    rcases hf : findChild j chX with _ | c
    · rfl
    · show interAux nb c (extendPath cur j) ++ _ = _
      rw [H j nb c (extendPath cur j) (List.mem_cons_self ..) hf]
      rfl

theorem interAux_suppressChain_right (ps : List String) : ∀ B cur,
    interAux B (suppressSegs ps emptyNode) cur = [] := by
  induction ps with
  | nil =>
    intro B cur
    cases B with
    | mk ba bs chb =>
      rw [show suppressSegs [] emptyNode = .mk false true [] from rfl]
      rw [interAux]
      show (if (ba && false) = true then [cur] else []) ++ interChildren chb [] cur = []
      rw [interChildren_nilB]
      simp
  | cons k rest ih =>
    intro B cur
    cases B with
    | mk ba bs chb =>
      rw [show suppressSegs (k :: rest) emptyNode
            = .mk false false [(k, suppressSegs rest emptyNode)] from rfl]
      rw [interAux]
      simp only [is_allowed_mk, Bool.and_false, children_mk]
      rw [interChildren_all_nil]
      · rfl
      · intro j nb c cur' _ hf
        rw [show findChild j [(k, suppressSegs rest emptyNode)]
              = if k = j then some (suppressSegs rest emptyNode) else none from rfl] at hf
        by_cases hkj : k = j
        · rw [if_pos hkj] at hf
          obtain rfl := Option.some.injEq .. ▸ hf
          exact ih nb cur'
        · rw [if_neg hkj] at hf
          exact absurd hf (Option.noConfusion)

theorem interAux_suppress_left (ps : List String) : ∀ A B cur,
    interAux (suppressSegs ps A) B cur = interAux A B cur := by
  induction ps with
  | nil =>
    intro A B cur
    cases A with
    | mk a s ch => rfl
  | cons k rest ih =>
    intro A B cur
    cases A with
    | mk a s ch =>
      rw [suppressSegs_cons, interAux, interAux]
      congr 1
      induction ch with
      | nil =>
        rw [show updateChild k (suppressSegs rest) ([] : List (String × Node))
              = [(k, suppressSegs rest emptyNode)] from rfl]
        rw [interChildren, interChildren]
        rcases hfb : findChild k B.children with _ | nb
        · rfl
        · show interAux (suppressSegs rest emptyNode) nb (extendPath cur k) ++ _ = _
          rw [interAux_suppressChain_left rest nb (extendPath cur k)]
          rfl
      | cons hd tl ihc =>
        obtain ⟨k', n⟩ := hd
        by_cases hk : k' = k
        · subst hk
          rw [show updateChild k' (suppressSegs rest) ((k', n) :: tl)
                = (k', suppressSegs rest n) :: tl from by simp [updateChild]]
          rw [interChildren, interChildren]
          congr 1
          rcases hfb : findChild k' B.children with _ | nb
          · rfl
          · exact ih n nb (extendPath cur k')
        · rw [show updateChild k (suppressSegs rest) ((k', n) :: tl)
                = (k', n) :: updateChild k (suppressSegs rest) tl from by
              simp [updateChild, hk]]
          rw [interChildren, interChildren, ihc]

theorem interAux_suppress_right (ps : List String) : ∀ A B cur,
    interAux B (suppressSegs ps A) cur = interAux B A cur := by
  induction ps with
  | nil =>
    intro A B cur
    cases A with
    | mk a s ch =>
      cases B with
      | mk ba bs chb => rfl
  | cons k rest ih =>
    intro A B cur
    cases A with
    | mk a s ch =>
      cases B with
      | mk ba bs chb =>
        rw [suppressSegs_cons, interAux, interAux]
        simp only [is_allowed_mk, children_mk]
        congr 1
        induction chb with
        | nil => rfl
        | cons hd tl ihc =>
          obtain ⟨j, nb⟩ := hd
          rw [interChildren, interChildren, ihc]
          congr 1
          by_cases hjk : j = k
          · subst hjk
            rw [findChild_updateChild_self]
            rcases hfa : findChild j ch with _ | na
            · show interAux nb (suppressSegs rest emptyNode) (extendPath cur j) = _
              rw [interAux_suppressChain_right rest nb (extendPath cur j)]
            · show interAux nb (suppressSegs rest na) (extendPath cur j) = _
              exact ih na nb (extendPath cur j)
          · rw [findChild_updateChild_ne j k hjk]

/-! ### The check verdict is a function of the terminal node -/

theorem checkSegs_eq_terminalVerdict (segs : List String) (t : Node) :
    checkSegs segs t = terminalVerdict (findNode t segs) := by
  induction segs generalizing t with
  | nil => rfl
  | cons k rest ih =>
    rw [checkSegs, findNode_cons]
    cases h : findChild k t.children with
    | some c => simp [ih]
    | none => rfl

/-! ### Claims -/

/-- C1 counterexample: with `allow("user.email")` then `suppress("user")`,
`check_access("user.email")` returns ALLOWED, not BLOCKED_SUPPRESSED — the
suppressed flag of the proper ancestor `user` is never consulted by the walk. -/
theorem check_ancestor_suppression_cex :
    check_access (suppress_path (allow_path emptyNode "user.email") "user") "user.email"
        = "ALLOWED"
      ∧ ("ALLOWED" : String) ≠ "BLOCKED_SUPPRESSED" := by decide

/-- C1 (amended): the verdict of `check_access` is a function of the terminal
node of the walk alone — BLOCKED_SUPPRESSED exactly when every segment
resolves and the terminal node has `suppressed = true` (taking precedence over
its allowed flag); suppressed flags of proper ancestors visited on the way do
not influence the result. -/
theorem check_terminal_only (t : Node) (p : String) :
    check_access t p = terminalVerdict (findNode t (splitPath p)) :=
  checkSegs_eq_terminalVerdict (splitPath p) t

/-- C2: every path emitted by `flatten` is the rendering of a walk on which no
visited node (the terminal included) is suppressed; and the concrete S3
scenario `allow("a.b.c"); allow("a.b.d"); suppress("a.b"); allow("x.y")`
flattens to exactly `["x.y"]`. -/
theorem flatten_respects_suppression :
    (∀ (t : Node) (s : String), WFb t = true → s ∈ flatten t →
      ∃ segs, s = renderFrom "" segs ∧
        ∀ i, ∃ n, findNode t (List.take i segs) = some n ∧ n.is_suppressed = false)
    ∧ flatten (allow_path (suppress_path (allow_path (allow_path emptyNode
        "a.b.c") "a.b.d") "a.b") "x.y") = ["x.y"] := by
  constructor
  · intro t s hwf hs
    exact flattenAux_mem t hwf "" s hs
  · decide

/-- C2 witness: the general statement applied to the S3 store and its single
emission `"x.y"`. -/
theorem flatten_respects_suppression_w :
    ∃ segs, "x.y" = renderFrom "" segs ∧
      ∀ i, ∃ n,
        findNode (allow_path (suppress_path (allow_path (allow_path emptyNode
          "a.b.c") "a.b.d") "a.b") "x.y") (List.take i segs) = some n ∧
        n.is_suppressed = false :=
  flatten_respects_suppression.1 _ "x.y" (by decide) (by decide)

/-- C3 counterexample: the path `"a..b"` (empty middle segment) is not
rejected: `allow_path` mutates the store (observably, and the store is no
longer the empty one) and a subsequent `check_access("a..b")` answers ALLOWED
rather than any InvalidPath failure. -/
theorem empty_segment_accepted_cex :
    check_access emptyNode "a..b" = "DENIED_NOT_FOUND"
      ∧ check_access (allow_path emptyNode "a..b") "a..b" = "ALLOWED"
      ∧ allow_path emptyNode "a..b" ≠ emptyNode :=
  ⟨by decide, by decide,
    fun h => absurd (congrArg (fun t => check_access t "a..b") h) (by decide)⟩

/-- C3 (amended): no path validation exists — `allow_path` and
`suppress_path` accept every string, empty segments included, splitting it on
`'.'` into tokens (empty tokens become ordinary empty-string keys), creating
the chain and setting the terminal node's flag. -/
theorem no_path_validation (t : Node) (p : String) :
    allowedAtB (allow_path t p) (splitPath p) = true
      ∧ suppressedAtB (suppress_path t p) (splitPath p) = true :=
  ⟨allowedAtB_allowSegs (splitPath p) t, suppressedAtB_suppressSegs (splitPath p) t⟩

/-- C4: starting from the empty store, after `allow("user.name")`:
`check("user.name") = ALLOWED`, `check("user.email") = DENIED_NOT_FOUND`,
and `check("user") = DENIED_NOT_FOUND`. -/
theorem basic_allow_deny :
    check_access (allow_path emptyNode "user.name") "user.name" = "ALLOWED"
      ∧ check_access (allow_path emptyNode "user.name") "user.email" = "DENIED_NOT_FOUND"
      ∧ check_access (allow_path emptyNode "user.name") "user" = "DENIED_NOT_FOUND" := by
  decide

/-- C5: `allow_path` never changes any node's suppressed flag and
`suppress_path` never changes any node's allowed flag (each observed at an
arbitrary node address `qs`; nodes freshly created by the walk carry `false`
flags, so the observation is preserved there as well). -/
theorem flags_preserved_independently (t : Node) (p : String) (qs : List String) :
    suppressedAtB (allow_path t p) qs = suppressedAtB t qs
      ∧ allowedAtB (suppress_path t p) qs = allowedAtB t qs :=
  ⟨suppressedAtB_allowSegs (splitPath p) t qs, allowedAtB_suppressSegs (splitPath p) t qs⟩

/-- C6: `allow_path` and `suppress_path` are idempotent — repeating the call
yields a store with identical node structure and flags. -/
theorem allow_suppress_idempotent (t : Node) (p : String) :
    allow_path (allow_path t p) p = allow_path t p
      ∧ suppress_path (suppress_path t p) p = suppress_path t p :=
  ⟨allowSegs_idem (splitPath p) t, suppressSegs_idem (splitPath p) t⟩

/-- C7: for well-formed stores (child maps with unique keys, as
`std::unordered_map` guarantees), `A.intersection(B)` and `B.intersection(A)`
contain exactly the same dotted paths. -/
theorem intersection_commutative_sets (A B : Node) (hA : WFb A = true)
    (hB : WFb B = true) (s : String) :
    s ∈ intersection A B ↔ s ∈ intersection B A := by
  rw [intersection, intersection,
    interAux_mem_iff A hA B "" s, interAux_mem_iff B hB A "" s]
  constructor
  · rintro ⟨segs, h1, h2, h3⟩
    exact ⟨segs, h2, h1, h3⟩
  · rintro ⟨segs, h1, h2, h3⟩
    exact ⟨segs, h2, h1, h3⟩

/-- C7 witness: the commutativity instance on two small concrete stores. -/
theorem intersection_commutative_sets_w :
    ("x.y" ∈ intersection (allow_path (allow_path emptyNode "a.b") "x.y")
        (allow_path emptyNode "x.y")
      ↔ "x.y" ∈ intersection (allow_path emptyNode "x.y")
        (allow_path (allow_path emptyNode "a.b") "x.y")) :=
  intersection_commutative_sets _ _ (by decide) (by decide) "x.y"

/-- C8: intersection never reads suppressed flags — stores that differ only in
their suppressed flags (`stripSup` equal) intersect identically on either
side, and a `suppress_path` call on one operand leaves both intersection
outputs unchanged as lists. -/
theorem intersection_ignores_suppression (A A' B : Node) (p : String)
    (h : stripSup A = stripSup A') :
    intersection A B = intersection A' B
      ∧ intersection B A = intersection B A'
      ∧ intersection (suppress_path A p) B = intersection A B
      ∧ intersection B (suppress_path A p) = intersection B A := by
  refine ⟨?_, ?_, ?_, ?_⟩
  · rw [intersection, intersection, ← interAux_stripSup A B "", h,
      interAux_stripSup A' B ""]
  · rw [intersection, intersection, ← interAux_stripSup B A "", h,
      interAux_stripSup B A' ""]
  · rw [intersection, intersection, suppress_path]
    exact interAux_suppress_left (splitPath p) A B ""
  · rw [intersection, intersection, suppress_path]
    exact interAux_suppress_right (splitPath p) A B ""

/-- C8 witness: a store with a suppressed interior node intersects exactly as
its suppression-free counterpart, and suppressing a fresh path changes
nothing. -/
theorem intersection_ignores_suppression_w :
    intersection (suppress_path (allow_path emptyNode "x.y") "x")
        (allow_path emptyNode "x.y")
      = intersection (allow_path emptyNode "x.y") (allow_path emptyNode "x.y")
    ∧ intersection (allow_path emptyNode "x.y")
        (suppress_path (allow_path emptyNode "x.y") "x")
      = intersection (allow_path emptyNode "x.y") (allow_path emptyNode "x.y")
    ∧ intersection
        (suppress_path (suppress_path (allow_path emptyNode "x.y") "x") "z")
        (allow_path emptyNode "x.y")
      = intersection (suppress_path (allow_path emptyNode "x.y") "x")
        (allow_path emptyNode "x.y")
    ∧ intersection (allow_path emptyNode "x.y")
        (suppress_path (suppress_path (allow_path emptyNode "x.y") "x") "z")
      = intersection (allow_path emptyNode "x.y")
        (suppress_path (allow_path emptyNode "x.y") "x") :=
  intersection_ignores_suppression
    (suppress_path (allow_path emptyNode "x.y") "x")
    (allow_path emptyNode "x.y")
    (allow_path emptyNode "x.y") "z" rfl

/-- C9 counterexample: applying `allow_path` to the empty string leaves the
root's allowed flag false — the empty path does not denote the root node. -/
theorem empty_path_root_cex : (allow_path emptyNode "").is_allowed = false := by decide

/-- C9 (amended): the empty string splits into the single empty segment, so
`allow_path t ""` marks the root's child keyed by `""` as allowed and leaves
both root flags untouched. -/
theorem empty_path_child_semantics (t : Node) :
    allowedAtB (allow_path t "") [""] = true
      ∧ (allow_path t "").is_allowed = t.is_allowed
      ∧ (allow_path t "").is_suppressed = t.is_suppressed := by
  refine ⟨?_, (allow_path_root_flags t "").1, (allow_path_root_flags t "").2⟩
  have h : splitPath "" = [""] := rfl
  rw [allow_path, h]
  exact allowedAtB_allowSegs [""] t

/-- C10 counterexample: `allow(".")` produces a reachable store whose
`flatten` output contains the empty dotted path (rendered from the two
empty-string segments), so flatten can emit the empty path. -/
theorem root_flags_emission_cex :
    Reachable (allow_path emptyNode ".") ∧ flatten (allow_path emptyNode ".") = [""] :=
  ⟨Reachable.allow emptyNode "." Reachable.empty, by decide⟩

/-- C10 (amended): on every store reachable from the empty store by
`allow_path`/`suppress_path` calls, both root flags stay false (both
operations always descend into at least one child); the root node itself
therefore never causes an emission, though empty-segment nodes may still
render as the empty string. -/
theorem reachable_root_flags_false (t : Node) (h : Reachable t) :
    t.is_allowed = false ∧ t.is_suppressed = false := by
  induction h with
  | empty => exact ⟨rfl, rfl⟩
  | allow t' p _ ih =>
    exact ⟨(allow_path_root_flags t' p).1.trans ih.1,
      (allow_path_root_flags t' p).2.trans ih.2⟩
  | suppress t' p _ ih =>
    exact ⟨(suppress_path_root_flags t' p).1.trans ih.1,
      (suppress_path_root_flags t' p).2.trans ih.2⟩

/-- C10 witness: root flags of the reachable store `allow("a.b")`. -/
theorem reachable_root_flags_false_w :
    (allow_path emptyNode "a.b").is_allowed = false
      ∧ (allow_path emptyNode "a.b").is_suppressed = false :=
  reachable_root_flags_false _ (Reachable.allow emptyNode "a.b" Reachable.empty)

end Leukocyte
